import Mathlib

/-!
Verification of the instrumented search engine in src/main.rs: the three
search functions binary_search, interpolation_search and
interpolated_binary_search over sorted lists of unsigned 32-bit integers.

Embedding conventions.

Machine integers: every u32 quantity (indices, element values, the
comparison counter) is a Nat kept below 2 ^ 32; each arithmetic operation
of the source is performed modulo 2 ^ 32 (wadd, wsub, wmul), matching the
two's-complement wrap-around of release-profile Rust.  The usize length is
an unbounded Nat; the cast to u32 at the loop initialisations is an
explicit mod.

Panics: indexing out of bounds and division by zero stop a Rust program in
every build profile.  A run therefore produces a value of type Run:
Run.ret for a normal return, Run.crash for a panic.  Nat division by zero
silently yields 0 in Lean, so each source division is preceded by an
explicit zero test that models the panic.

Loops: the source while loops are embedded as fuel-indexed recursion; a
run that exhausts its fuel produces Run.spin.  The top-level functions
supply fuel length + 2, which the correctness theorems below show is
sufficient on the inputs they cover; Run.spin is observable so that
non-termination of the source loop can be stated and proved.
-/

/-- 2 ^ 32, the modulus of u32 arithmetic. -/
def U32LIM : Nat := 4294967296

/-- Wrapping u32 addition. -/
def wadd (a b : Nat) : Nat := (a + b) % U32LIM

/-- Wrapping u32 subtraction (arguments below 2 ^ 32). -/
def wsub (a b : Nat) : Nat := (a + U32LIM - b) % U32LIM

/-- Wrapping u32 multiplication. -/
def wmul (a b : Nat) : Nat := (a * b) % U32LIM

/-- The cast `x as i32` applied to a u32 value. -/
def u32_as_i32 (n : Nat) : Int :=
  if n < 2147483648 then (n : Int) else (n : Int) - 4294967296

/-- Outcome of running an embedded Rust computation: a normal return, a
panic (Run.crash), or exhaustion of the loop fuel (Run.spin). -/
inductive Run (α : Type) where
  | ret (a : α) : Run α
  | crash : Run α
  | spin : Run α
deriving DecidableEq

/-- Sequencing of embedded computations; crash and spin propagate. -/
def Run.bind {α β : Type} : Run α → (α → Run β) → Run β
  | Run.ret a, f => f a
  | Run.crash, _ => Run.crash
  | Run.spin, _ => Run.spin

/-- The struct SearchResult of src/main.rs: target_index is i32 (-1 is the
not-found sentinel), comparison_count is u32, array_length is usize. -/
structure SearchResult where
  target_index : Int
  comparison_count : Nat
  array_length : Nat
deriving DecidableEq

/-- The Rust index expression num_array[i]: panics when out of bounds. -/
def getElem32 (l : List Nat) (i : Nat) : Run Nat :=
  match l[i]? with
  | some v => Run.ret v
  | none => Run.crash

/-- The interpolation probe shared by lines 206 and 243 of src/main.rs:
start + (target - value[start]) * (end - start) / (value[end] - value[start]),
in wrapping u32 arithmetic, given the already-read boundary values. -/
def interpProbe (t s e vs ve : Nat) : Nat :=
  wadd s (wmul (wsub t vs) (wsub e s) / wsub ve vs)

/-- The while loop of binary_search (src/main.rs lines 173-188) plus the
final increment-and-return of lines 189-191, as fuel-indexed recursion on
the state (start_index, end_index, comparison_count). -/
def binLoop (l : List Nat) (t : Nat) : Nat → Nat → Nat → Nat → Run SearchResult
  | 0, _, _, _ => Run.spin
  | fuel + 1, s, e, c =>
    if s ≤ e then
      let c1 := wadd c 1
      let si := wadd s (wsub e s / 2)
      Run.bind (getElem32 l si) fun v =>
        let c2 := wadd c1 1
        if v = t then Run.ret ⟨u32_as_i32 si, c2, l.length⟩
        else
          let c3 := wadd c2 1
          if v < t then binLoop l t fuel (wadd si 1) e c3
          else binLoop l t fuel s (wsub si 1) c3
    else Run.ret ⟨-1, wadd c 1, l.length⟩

/-- binary_search (src/main.rs lines 163-192). -/
def binary_search (l : List Nat) (t : Nat) : Run SearchResult :=
  if l.length = 0 then Run.ret ⟨-1, 1, l.length⟩
  else binLoop l t (l.length + 2) 0 (wsub (l.length % U32LIM) 1) 1

/-- The while loop of interpolation_search (src/main.rs lines 204-220)
plus the final check of lines 222-227.  The guard reads value[end] and
value[start]; the division of line 206 cannot divide by zero because the
guard requires the boundary values to differ, but the zero test that
models the division panic is kept for faithfulness. -/
def interpLoop (l : List Nat) (t : Nat) : Nat → Nat → Nat → Nat → Run SearchResult
  | 0, _, _, _ => Run.spin
  | fuel + 1, s, e, c =>
    Run.bind (getElem32 l e) fun ve =>
    Run.bind (getElem32 l s) fun vs =>
    if ve ≠ vs ∧ vs ≤ t ∧ t ≤ ve then
      let c1 := wadd c 3
      if wsub ve vs = 0 then Run.crash
      else
        let ip := interpProbe t s e vs ve
        Run.bind (getElem32 l ip) fun vip =>
          let c2 := wadd c1 1
          if t = vip then Run.ret ⟨u32_as_i32 ip, c2, l.length⟩
          else
            let c3 := wadd c2 1
            if t < vip then interpLoop l t fuel s (wsub ip 1) c3
            else interpLoop l t fuel (wadd ip 1) e c3
    else
      let c4 := wadd c 4
      Run.bind (getElem32 l s) fun vs2 =>
        if t = vs2 then Run.ret ⟨u32_as_i32 s, c4, l.length⟩
        else Run.ret ⟨-1, c4, l.length⟩

/-- interpolation_search (src/main.rs lines 194-228). -/
def interpolation_search (l : List Nat) (t : Nat) : Run SearchResult :=
  if l.length = 0 then Run.ret ⟨-1, 1, l.length⟩
  else interpLoop l t (l.length + 2) 0 (wsub (l.length % U32LIM) 1) 1

/-- The while loop of interpolated_binary_search (src/main.rs lines
241-270) plus the final check of lines 272-277.  The division of line 243
has no guard in the source, so its zero test is a reachable panic. -/
def hybLoop (l : List Nat) (t : Nat) : Nat → Nat → Nat → Nat → Run SearchResult
  | 0, _, _, _ => Run.spin
  | fuel + 1, s, e, c =>
    if s < e then
      let c1 := wadd c 1
      Run.bind (getElem32 l s) fun vs =>
      Run.bind (getElem32 l e) fun ve =>
      if wsub ve vs = 0 then Run.crash
      else
        let ip := interpProbe t s e vs ve
        Run.bind (getElem32 l ip) fun vip =>
          let c2 := wadd c1 1
          if vip < t then
            let mid := wadd ip e / 2
            Run.bind (getElem32 l mid) fun vm =>
              let c3 := wadd c2 1
              if t ≤ vm then hybLoop l t fuel (wadd ip 1) mid (wadd c3 1)
              else hybLoop l t fuel (wadd mid 1) e (wadd c3 1)
          else if t < vip then
            let mid := wadd ip s / 2
            Run.bind (getElem32 l mid) fun vm =>
              let c3 := wadd c2 1
              if vm ≤ t then hybLoop l t fuel mid (wsub ip 1) (wadd c3 1)
              else hybLoop l t fuel s (wsub mid 1) (wadd c3 1)
          else Run.ret ⟨u32_as_i32 ip, c2, l.length⟩
    else
      let c2 := wadd c 2
      Run.bind (getElem32 l s) fun vs =>
        if t = vs then Run.ret ⟨u32_as_i32 s, c2, l.length⟩
        else Run.ret ⟨-1, c2, l.length⟩

/-- interpolated_binary_search (src/main.rs lines 230-278). -/
def interpolated_binary_search (l : List Nat) (t : Nat) : Run SearchResult :=
  if l.length = 0 then Run.ret ⟨-1, 1, l.length⟩
  else hybLoop l t (l.length + 2) 0 (wsub (l.length % U32LIM) 1) 1

/-- Modelled from the spec (section 4.2 cost accounting): the number of
completed non-returning iterations of the interpolation_search loop,
following the loop's control flow exactly.  This is a specification-side
companion used to state the comparison-count claim. -/
def interpStepsAux (l : List Nat) (t : Nat) : Nat → Nat → Nat → Option Nat
  | 0, _, _ => none
  | fuel + 1, s, e =>
    if he : e < l.length then
      if hs : s < l.length then
        if l[e] ≠ l[s] ∧ l[s] ≤ t ∧ t ≤ l[e] then
          if wsub l[e] l[s] = 0 then none
          else
            if hip : interpProbe t s e l[s] l[e] < l.length then
              if t = l[interpProbe t s e l[s] l[e]] then some 0
              else if t < l[interpProbe t s e l[s] l[e]] then
                Option.map (· + 1)
                  (interpStepsAux l t fuel s (wsub (interpProbe t s e l[s] l[e]) 1))
              else
                Option.map (· + 1)
                  (interpStepsAux l t fuel (wadd (interpProbe t s e l[s] l[e]) 1) e)
            else none
        else some 0
      else none
    else none

/-- Completed non-returning loop iterations of interpolation_search. -/
def interpSteps (l : List Nat) (t : Nat) : Option Nat :=
  if l.length = 0 then none
  else interpStepsAux l t (l.length + 2) 0 (wsub (l.length % U32LIM) 1)

/-- The loop of interpolated_binary_search never finishes on this input,
however much fuel it is given: it neither returns nor panics. -/
def hybridLoopsForever (l : List Nat) (t : Nat) : Prop :=
  ∀ fuel c, hybLoop l t fuel 0 (wsub (l.length % U32LIM) 1) c = Run.spin

/-- A sorted input on which the hybrid search loop cycles between the
index ranges (0, 1) and (0, 5) with target 100. -/
def hybridCycleInput : List Nat :=
  [0, 8, 101, 101, 101, 125, 126, 126, 126, 126, 126, 126, 250]

/-! Basic facts about the embedded operations. -/

theorem U32LIM_eq : U32LIM = 4294967296 := rfl

theorem wadd_eq {a b : Nat} (h : a + b < U32LIM) : wadd a b = a + b :=
  Nat.mod_eq_of_lt h

theorem wsub_eq {a b : Nat} (hba : b ≤ a) (ha : a < U32LIM) : wsub a b = a - b := by
  unfold wsub
  have h1 : a + U32LIM - b = (a - b) + U32LIM := by omega
  rw [h1, Nat.add_mod_right, Nat.mod_eq_of_lt (by omega)]

theorem wadd_wadd (a b d : Nat) : wadd (wadd a b) d = wadd a (b + d) := by
  simp [wadd, Nat.mod_add_mod, Nat.add_assoc]

theorem u32_as_i32_eq {n : Nat} (h : n < 2147483648) : u32_as_i32 n = (n : Int) := by
  simp [u32_as_i32, h]

theorem Run.bind_ret {α β : Type} (a : α) (f : α → Run β) :
    Run.bind (Run.ret a) f = f a := rfl

theorem getElem32_eq_ret {l : List Nat} {i : Nat} (h : i < l.length) :
    getElem32 l i = Run.ret l[i] := by
  simp [getElem32, List.getElem?_eq_getElem h]

theorem getElem32_eq_crash {l : List Nat} {i : Nat} (h : l.length ≤ i) :
    getElem32 l i = Run.crash := by
  simp [getElem32, List.getElem?_eq_none h]

theorem getElem32_cases (l : List Nat) (i : Nat) :
    (∃ v, getElem32 l i = Run.ret v ∧ l[i]? = some v) ∨
    (getElem32 l i = Run.crash ∧ l.length ≤ i) := by
  unfold getElem32
  cases h : l[i]? with
  | none => exact Or.inr ⟨rfl, List.getElem?_eq_none_iff.mp h⟩
  | some v => exact Or.inl ⟨v, rfl, rfl⟩

theorem sorted_getElem_le {l : List Nat} (hl : List.Sorted (fun a b : Nat => a ≤ b) l)
    {i j : Nat} (hi : i < l.length) (hj : j < l.length) (hij : i ≤ j) : l[i] ≤ l[j] := by
  rcases Nat.lt_or_ge i j with h | h
  · exact List.pairwise_iff_getElem.mp hl i j hi hj h
  · have hij2 : i = j := Nat.le_antisymm hij h
    subst hij2
    exact Nat.le_refl _

/-! Claim theorems. -/

/-- Claim C5: searching the empty sequence returns not-found (sentinel -1)
with comparison_count exactly 1, for each of the three search functions
and every target. -/
theorem C5_empty_sequence (t : Nat) :
    binary_search [] t = Run.ret ⟨-1, 1, 0⟩ ∧
    interpolation_search [] t = Run.ret ⟨-1, 1, 0⟩ ∧
    interpolated_binary_search [] t = Run.ret ⟨-1, 1, 0⟩ :=
  ⟨rfl, rfl, rfl⟩

/-- Claim C4 (code bug): on the one-element sorted sequence [5] with
target 3, binary_search reaches the state start_index = end_index = 0 with
the element above the target, and executes end_index = search_index - 1 as
the wrapping subtraction 0 - 1 = 2 ^ 32 - 1 instead of terminating the
loop; the following iteration then indexes out of bounds and the run
panics, where the claim requires a normal not-found return. -/
theorem C4_binary_search_underflow :
    wsub 0 1 = 4294967295 ∧ binary_search [5] 3 = Run.crash :=
  ⟨rfl, rfl⟩

/-- Claim C2 (code bug): for the sorted sequence [1, 2] and the
out-of-range target 0 (strictly below the minimum), interpolation_search
returns not-found as the claim states, but binary_search panics (index
underflow followed by an out-of-bounds access) and
interpolated_binary_search panics (the subtraction target - value[start]
wraps and produces an out-of-bounds probe). -/
theorem C2_out_of_range_panics :
    binary_search [1, 2] 0 = Run.crash ∧
    interpolation_search [1, 2] 0 = Run.ret ⟨-1, 5, 2⟩ ∧
    interpolated_binary_search [1, 2] 0 = Run.crash :=
  ⟨rfl, rfl, rfl⟩

/-- Claim C3 (code bug): on the all-equal sequence [5,5,5,5,5] with target
5, interpolation_search avoids the division (its loop guard rejects the
zero-width value range) and returns found at index 0, but
interpolated_binary_search divides by value[high] - value[low] = 0 on its
first iteration and panics, where the claim requires both to return found
without a division by zero. -/
theorem C3_equal_values_division :
    interpolation_search [5, 5, 5, 5, 5] 5 = Run.ret ⟨0, 5, 5⟩ ∧
    interpolated_binary_search [5, 5, 5, 5, 5] 5 = Run.crash :=
  ⟨rfl, rfl⟩

/-- Claim C1, counterexample: the target 5 occurs in the sorted sequence
[5, 5], yet interpolated_binary_search does not return a found result: its
first iteration divides by value[high] - value[low] = 0 and the run
panics. -/
theorem C1_counterexample_hybrid_panics :
    interpolated_binary_search [5, 5] 5 = Run.crash := rfl

/-! Non-termination of the hybrid search loop on hybridCycleInput. -/

theorem hybCycle_enter (fuel c : Nat) :
    hybLoop hybridCycleInput 100 (fuel + 1) 0 12 c =
      hybLoop hybridCycleInput 100 fuel 0 1 (wadd (wadd (wadd (wadd c 1) 1) 1) 1) := rfl

theorem hybCycle_step_one (fuel c : Nat) :
    hybLoop hybridCycleInput 100 (fuel + 1) 0 1 c =
      hybLoop hybridCycleInput 100 fuel 0 5 (wadd (wadd (wadd (wadd c 1) 1) 1) 1) := rfl

theorem hybCycle_step_five (fuel c : Nat) :
    hybLoop hybridCycleInput 100 (fuel + 1) 0 5 c =
      hybLoop hybridCycleInput 100 fuel 0 1 (wadd (wadd (wadd (wadd c 1) 1) 1) 1) := rfl

theorem hybCycle_spin (fuel : Nat) :
    ∀ c, hybLoop hybridCycleInput 100 fuel 0 1 c = Run.spin ∧
      hybLoop hybridCycleInput 100 fuel 0 5 c = Run.spin := by
  induction fuel with
  | zero => intro c; exact ⟨rfl, rfl⟩
  | succ n ih =>
    intro c
    exact ⟨(hybCycle_step_one n c).trans (ih _).2,
      (hybCycle_step_five n c).trans (ih _).1⟩

/-- Claim C6 (code bug): interpolated_binary_search does not terminate on
the sorted input hybridCycleInput with target 100.  The loop enters the
index range (0, 1) after one iteration and then cycles forever between
the ranges (0, 1) and (0, 5): for every amount of fuel the embedded loop
neither returns nor panics, so the source while loop runs forever and the
claim that every search terminates fails. -/
theorem C6_hybrid_search_diverges :
    hybridLoopsForever hybridCycleInput 100 ∧
    interpolated_binary_search hybridCycleInput 100 = Run.spin := by
  have hforever : hybridLoopsForever hybridCycleInput 100 := by
    intro fuel c
    show hybLoop hybridCycleInput 100 fuel 0 12 c = Run.spin
    cases fuel with
    | zero => rfl
    | succ n => exact (hybCycle_enter n c).trans (hybCycle_spin n _).1
  exact ⟨hforever, hforever (hybridCycleInput.length + 2) 1⟩

/-! Validity of the returned index (claim C9). -/

theorem binLoop_index (l : List Nat) (t : Nat) :
    ∀ fuel s e c r, binLoop l t fuel s e c = Run.ret r →
      r.target_index = -1 ∨
        ∃ i, i < l.length ∧ l[i]? = some t ∧ r.target_index = u32_as_i32 i := by
  intro fuel
  induction fuel with
  | zero => intro s e c r h; exact Run.noConfusion h
  | succ n ih =>
    intro s e c r h
    simp only [binLoop] at h
    by_cases hse : s ≤ e
    · rw [if_pos hse] at h
      rcases getElem32_cases l (wadd s (wsub e s / 2)) with ⟨v, hget, hv⟩ | ⟨hget, _⟩ <;>
        rw [hget] at h
      · simp only [Run.bind] at h
        by_cases hvt : v = t
        · rw [if_pos hvt] at h
          cases h
          obtain ⟨hlt, _⟩ := List.getElem?_eq_some_iff.mp hv
          exact Or.inr ⟨wadd s (wsub e s / 2), hlt, by rw [hv, hvt], rfl⟩
        · rw [if_neg hvt] at h
          by_cases hlt : v < t
          · rw [if_pos hlt] at h; exact ih _ _ _ _ h
          · rw [if_neg hlt] at h; exact ih _ _ _ _ h
      · exact Run.noConfusion h
    · rw [if_neg hse] at h
      cases h
      exact Or.inl rfl

theorem interpLoop_index (l : List Nat) (t : Nat) :
    ∀ fuel s e c r, interpLoop l t fuel s e c = Run.ret r →
      r.target_index = -1 ∨
        ∃ i, i < l.length ∧ l[i]? = some t ∧ r.target_index = u32_as_i32 i := by
  intro fuel
  induction fuel with
  | zero => intro s e c r h; exact Run.noConfusion h
  | succ n ih =>
    intro s e c r h
    simp only [interpLoop] at h
    rcases getElem32_cases l e with ⟨ve, hge, hve⟩ | ⟨hge, _⟩ <;> rw [hge] at h
    · simp only [Run.bind] at h
      rcases getElem32_cases l s with ⟨vs, hgs, hvs⟩ | ⟨hgs, _⟩ <;> rw [hgs] at h
      · simp only [Run.bind] at h
        by_cases hg : ve ≠ vs ∧ vs ≤ t ∧ t ≤ ve
        · rw [if_pos hg] at h
          by_cases h0 : wsub ve vs = 0
          · rw [if_pos h0] at h; exact Run.noConfusion h
          · rw [if_neg h0] at h
            rcases getElem32_cases l (interpProbe t s e vs ve) with ⟨vip, hgp, hvip⟩ | ⟨hgp, _⟩ <;>
              rw [hgp] at h
            · simp only [Run.bind] at h
              by_cases hteq : t = vip
              · rw [if_pos hteq] at h
                cases h
                obtain ⟨hlt, _⟩ := List.getElem?_eq_some_iff.mp hvip
                exact Or.inr ⟨interpProbe t s e vs ve, hlt, by rw [hvip, hteq], rfl⟩
              · rw [if_neg hteq] at h
                by_cases htlt : t < vip
                · rw [if_pos htlt] at h; exact ih _ _ _ _ h
                · rw [if_neg htlt] at h; exact ih _ _ _ _ h
            · exact Run.noConfusion h
        · rw [if_neg hg] at h
          by_cases hteq : t = vs
          · rw [if_pos hteq] at h
            cases h
            obtain ⟨hlt, _⟩ := List.getElem?_eq_some_iff.mp hvs
            exact Or.inr ⟨s, hlt, by rw [hvs, hteq], rfl⟩
          · rw [if_neg hteq] at h
            cases h
            exact Or.inl rfl
      · exact Run.noConfusion h
    · exact Run.noConfusion h

theorem hybLoop_index (l : List Nat) (t : Nat) :
    ∀ fuel s e c r, hybLoop l t fuel s e c = Run.ret r →
      r.target_index = -1 ∨
        ∃ i, i < l.length ∧ l[i]? = some t ∧ r.target_index = u32_as_i32 i := by
  intro fuel
  induction fuel with
  | zero => intro s e c r h; exact Run.noConfusion h
  | succ n ih =>
    intro s e c r h
    simp only [hybLoop] at h
    by_cases hse : s < e
    · rw [if_pos hse] at h
      rcases getElem32_cases l s with ⟨vs, hgs, hvs⟩ | ⟨hgs, _⟩ <;> rw [hgs] at h
      · simp only [Run.bind] at h
        rcases getElem32_cases l e with ⟨ve, hge, hve⟩ | ⟨hge, _⟩ <;> rw [hge] at h
        · simp only [Run.bind] at h
          by_cases h0 : wsub ve vs = 0
          · rw [if_pos h0] at h; exact Run.noConfusion h
          · rw [if_neg h0] at h
            rcases getElem32_cases l (interpProbe t s e vs ve) with ⟨vip, hgp, hvip⟩ | ⟨hgp, _⟩ <;>
              rw [hgp] at h
            · simp only [Run.bind] at h
              by_cases hb1 : vip < t
              · rw [if_pos hb1] at h
                rcases getElem32_cases l (wadd (interpProbe t s e vs ve) e / 2) with
                  ⟨vm, hgm, hvm⟩ | ⟨hgm, _⟩ <;> rw [hgm] at h
                · simp only [Run.bind] at h
                  by_cases hb2 : t ≤ vm
                  · rw [if_pos hb2] at h; exact ih _ _ _ _ h
                  · rw [if_neg hb2] at h; exact ih _ _ _ _ h
                · exact Run.noConfusion h
              · rw [if_neg hb1] at h
                by_cases hb3 : t < vip
                · rw [if_pos hb3] at h
                  rcases getElem32_cases l (wadd (interpProbe t s e vs ve) s / 2) with
                    ⟨vm, hgm, hvm⟩ | ⟨hgm, _⟩ <;> rw [hgm] at h
                  · simp only [Run.bind] at h
                    by_cases hb4 : vm ≤ t
                    · rw [if_pos hb4] at h; exact ih _ _ _ _ h
                    · rw [if_neg hb4] at h; exact ih _ _ _ _ h
                  · exact Run.noConfusion h
                · rw [if_neg hb3] at h
                  cases h
                  obtain ⟨hlt, hv⟩ := List.getElem?_eq_some_iff.mp hvip
                  have hvt : vip = t := Nat.le_antisymm (Nat.le_of_not_lt hb3) (Nat.le_of_not_lt hb1)
                  exact Or.inr ⟨interpProbe t s e vs ve, hlt, by rw [hvip, hvt], rfl⟩
            · exact Run.noConfusion h
        · exact Run.noConfusion h
      · exact Run.noConfusion h
    · rw [if_neg hse] at h
      rcases getElem32_cases l s with ⟨vs, hgs, hvs⟩ | ⟨hgs, _⟩ <;> rw [hgs] at h
      · simp only [Run.bind] at h
        by_cases hteq : t = vs
        · rw [if_pos hteq] at h
          cases h
          obtain ⟨hlt, _⟩ := List.getElem?_eq_some_iff.mp hvs
          exact Or.inr ⟨s, hlt, by rw [hvs, hteq], rfl⟩
        · rw [if_neg hteq] at h
          cases h
          exact Or.inl rfl
      · exact Run.noConfusion h

/-- Claim C9: on every input (sorted or not), a returned SearchOutcome
carries either the not-found sentinel -1 or a valid index i within the
sequence whose element equals the target; a found result is never
out of range or value-mismatched, and the sentinel is distinct from every
valid index.  The length bound keeps the i32 cast of a u32 index exact. -/
theorem C9_found_index_valid (l : List Nat) (t : Nat) (hlen : l.length ≤ 2 ^ 31) :
    (∀ r, binary_search l t = Run.ret r → r.target_index = -1 ∨
        ∃ i, i < l.length ∧ l[i]? = some t ∧ r.target_index = (i : Int)) ∧
    (∀ r, interpolation_search l t = Run.ret r → r.target_index = -1 ∨
        ∃ i, i < l.length ∧ l[i]? = some t ∧ r.target_index = (i : Int)) ∧
    (∀ r, interpolated_binary_search l t = Run.ret r → r.target_index = -1 ∨
        ∃ i, i < l.length ∧ l[i]? = some t ∧ r.target_index = (i : Int)) := by
  have hlen2 : l.length ≤ 2147483648 := le_trans hlen (by norm_num)
  have conv : ∀ r : SearchResult, (r.target_index = -1 ∨
      ∃ i, i < l.length ∧ l[i]? = some t ∧ r.target_index = u32_as_i32 i) →
      r.target_index = -1 ∨
      ∃ i, i < l.length ∧ l[i]? = some t ∧ r.target_index = (i : Int) := by
    rintro r (h1 | ⟨i, hi, hit, hidx⟩)
    · exact Or.inl h1
    · exact Or.inr ⟨i, hi, hit, by rw [hidx, u32_as_i32_eq (by omega)]⟩
  refine ⟨fun r h => ?_, fun r h => ?_, fun r h => ?_⟩
  · unfold binary_search at h
    by_cases hl0 : l.length = 0
    · rw [if_pos hl0] at h; cases h; exact Or.inl rfl
    · rw [if_neg hl0] at h
      exact conv r (binLoop_index l t _ _ _ _ r h)
  · unfold interpolation_search at h
    by_cases hl0 : l.length = 0
    · rw [if_pos hl0] at h; cases h; exact Or.inl rfl
    · rw [if_neg hl0] at h
      exact conv r (interpLoop_index l t _ _ _ _ r h)
  · unfold interpolated_binary_search at h
    by_cases hl0 : l.length = 0
    · rw [if_pos hl0] at h; cases h; exact Or.inl rfl
    · rw [if_neg hl0] at h
      exact conv r (hybLoop_index l t _ _ _ _ r h)

/-- Witness for C9 at the concrete input [7] with target 7, whose
binary_search run returns found at index 0 with 3 comparisons. -/
theorem C9_witness :
    (SearchResult.mk 0 3 1).target_index = -1 ∨
      ∃ i, i < ([7] : List Nat).length ∧ ([7] : List Nat)[i]? = some 7 ∧
        (SearchResult.mk 0 3 1).target_index = (i : Int) :=
  (C9_found_index_valid [7] 7 (by norm_num)).1 ⟨0, 3, 1⟩ rfl

/-! Lower bound on the comparison counter (claim C8). -/

theorem binLoop_delta (l : List Nat) (t : Nat) :
    ∀ fuel s e c r, binLoop l t fuel s e c = Run.ret r →
      ∃ d, d ≤ 3 * fuel + 1 ∧ r.comparison_count = (c + d) % U32LIM := by
  intro fuel
  induction fuel with
  | zero => intro s e c r h; exact Run.noConfusion h
  | succ n ih =>
    intro s e c r h
    simp only [binLoop] at h
    by_cases hse : s ≤ e
    · rw [if_pos hse] at h
      rcases getElem32_cases l (wadd s (wsub e s / 2)) with ⟨v, hget, hv⟩ | ⟨hget, _⟩ <;>
        rw [hget] at h
      · simp only [Run.bind] at h
        by_cases hvt : v = t
        · rw [if_pos hvt] at h
          cases h
          exact ⟨2, by omega, by simp [wadd_wadd, wadd]⟩
        · rw [if_neg hvt] at h
          by_cases hlt : v < t
          · rw [if_pos hlt] at h
            obtain ⟨d, hd, hcount⟩ := ih _ _ _ _ h
            refine ⟨3 + d, by omega, ?_⟩
            rw [hcount]
            simp only [wadd_wadd, wadd, Nat.mod_add_mod]
            congr 1
            omega
          · rw [if_neg hlt] at h
            obtain ⟨d, hd, hcount⟩ := ih _ _ _ _ h
            refine ⟨3 + d, by omega, ?_⟩
            rw [hcount]
            simp only [wadd_wadd, wadd, Nat.mod_add_mod]
            congr 1
            omega
      · exact Run.noConfusion h
    · rw [if_neg hse] at h
      cases h
      exact ⟨1, by omega, rfl⟩

theorem interpLoop_delta (l : List Nat) (t : Nat) :
    ∀ fuel s e c r, interpLoop l t fuel s e c = Run.ret r →
      ∃ d, d ≤ 5 * fuel + 4 ∧ r.comparison_count = (c + d) % U32LIM := by
  intro fuel
  induction fuel with
  | zero => intro s e c r h; exact Run.noConfusion h
  | succ n ih =>
    intro s e c r h
    simp only [interpLoop] at h
    rcases getElem32_cases l e with ⟨ve, hge, hve⟩ | ⟨hge, _⟩ <;> rw [hge] at h
    · simp only [Run.bind] at h
      rcases getElem32_cases l s with ⟨vs, hgs, hvs⟩ | ⟨hgs, _⟩ <;> rw [hgs] at h
      · simp only [Run.bind] at h
        by_cases hg : ve ≠ vs ∧ vs ≤ t ∧ t ≤ ve
        · rw [if_pos hg] at h
          by_cases h0 : wsub ve vs = 0
          · rw [if_pos h0] at h; exact Run.noConfusion h
          · rw [if_neg h0] at h
            rcases getElem32_cases l (interpProbe t s e vs ve) with ⟨vip, hgp, hvip⟩ | ⟨hgp, _⟩ <;>
              rw [hgp] at h
            · simp only [Run.bind] at h
              by_cases hteq : t = vip
              · rw [if_pos hteq] at h
                cases h
                exact ⟨4, by omega, by simp [wadd_wadd, wadd]⟩
              · rw [if_neg hteq] at h
                by_cases htlt : t < vip
                · rw [if_pos htlt] at h
                  obtain ⟨d, hd, hcount⟩ := ih _ _ _ _ h
                  refine ⟨5 + d, by omega, ?_⟩
                  rw [hcount]
                  simp only [wadd_wadd, wadd, Nat.mod_add_mod]
                  congr 1
                  omega
                · rw [if_neg htlt] at h
                  obtain ⟨d, hd, hcount⟩ := ih _ _ _ _ h
                  refine ⟨5 + d, by omega, ?_⟩
                  rw [hcount]
                  simp only [wadd_wadd, wadd, Nat.mod_add_mod]
                  congr 1
                  omega
            · exact Run.noConfusion h
        · rw [if_neg hg] at h
          by_cases hteq : t = vs
          · rw [if_pos hteq] at h
            cases h
            exact ⟨4, by omega, rfl⟩
          · rw [if_neg hteq] at h
            cases h
            exact ⟨4, by omega, rfl⟩
      · exact Run.noConfusion h
    · exact Run.noConfusion h

theorem hybLoop_delta (l : List Nat) (t : Nat) :
    ∀ fuel s e c r, hybLoop l t fuel s e c = Run.ret r →
      ∃ d, d ≤ 4 * fuel + 2 ∧ r.comparison_count = (c + d) % U32LIM := by
  intro fuel
  induction fuel with
  | zero => intro s e c r h; exact Run.noConfusion h
  | succ n ih =>
    intro s e c r h
    simp only [hybLoop] at h
    by_cases hse : s < e
    · rw [if_pos hse] at h
      rcases getElem32_cases l s with ⟨vs, hgs, hvs⟩ | ⟨hgs, _⟩ <;> rw [hgs] at h
      · simp only [Run.bind] at h
        rcases getElem32_cases l e with ⟨ve, hge, hve⟩ | ⟨hge, _⟩ <;> rw [hge] at h
        · simp only [Run.bind] at h
          by_cases h0 : wsub ve vs = 0
          · rw [if_pos h0] at h; exact Run.noConfusion h
          · rw [if_neg h0] at h
            rcases getElem32_cases l (interpProbe t s e vs ve) with ⟨vip, hgp, hvip⟩ | ⟨hgp, _⟩ <;>
              rw [hgp] at h
            · simp only [Run.bind] at h
              by_cases hb1 : vip < t
              · rw [if_pos hb1] at h
                rcases getElem32_cases l (wadd (interpProbe t s e vs ve) e / 2) with
                  ⟨vm, hgm, hvm⟩ | ⟨hgm, _⟩ <;> rw [hgm] at h
                · simp only [Run.bind] at h
                  have step : ∀ s2 e2, hybLoop l t n s2 e2
                        (wadd (wadd (wadd (wadd c 1) 1) 1) 1) = Run.ret r →
                      ∃ d, d ≤ 4 * (n + 1) + 2 ∧ r.comparison_count = (c + d) % U32LIM := by
                    intro s2 e2 h2
                    obtain ⟨d, hd, hcount⟩ := ih _ _ _ _ h2
                    refine ⟨4 + d, by omega, ?_⟩
                    rw [hcount]
                    simp only [wadd_wadd, wadd, Nat.mod_add_mod]
                    congr 1
                    omega
                  by_cases hb2 : t ≤ vm
                  · rw [if_pos hb2] at h; exact step _ _ h
                  · rw [if_neg hb2] at h; exact step _ _ h
                · exact Run.noConfusion h
              · rw [if_neg hb1] at h
                by_cases hb3 : t < vip
                · rw [if_pos hb3] at h
                  rcases getElem32_cases l (wadd (interpProbe t s e vs ve) s / 2) with
                    ⟨vm, hgm, hvm⟩ | ⟨hgm, _⟩ <;> rw [hgm] at h
                  · simp only [Run.bind] at h
                    have step : ∀ s2 e2, hybLoop l t n s2 e2
                          (wadd (wadd (wadd (wadd c 1) 1) 1) 1) = Run.ret r →
                        ∃ d, d ≤ 4 * (n + 1) + 2 ∧ r.comparison_count = (c + d) % U32LIM := by
                      intro s2 e2 h2
                      obtain ⟨d, hd, hcount⟩ := ih _ _ _ _ h2
                      refine ⟨4 + d, by omega, ?_⟩
                      rw [hcount]
                      simp only [wadd_wadd, wadd, Nat.mod_add_mod]
                      congr 1
                      omega
                    by_cases hb4 : vm ≤ t
                    · rw [if_pos hb4] at h; exact step _ _ h
                    · rw [if_neg hb4] at h; exact step _ _ h
                  · exact Run.noConfusion h
                · rw [if_neg hb3] at h
                  cases h
                  exact ⟨2, by omega, by simp [wadd_wadd, wadd]⟩
            · exact Run.noConfusion h
        · exact Run.noConfusion h
      · exact Run.noConfusion h
    · rw [if_neg hse] at h
      rcases getElem32_cases l s with ⟨vs, hgs, hvs⟩ | ⟨hgs, _⟩ <;> rw [hgs] at h
      · simp only [Run.bind] at h
        by_cases hteq : t = vs
        · rw [if_pos hteq] at h
          cases h
          exact ⟨2, by omega, rfl⟩
        · rw [if_neg hteq] at h
          cases h
          exact ⟨2, by omega, rfl⟩
      · exact Run.noConfusion h

/-- Claim C8: for every input sequence (of length within the range where
the u32 counter cannot wrap) and every target, a returned SearchOutcome
has comparison_count at least 1, for each of the three search
functions. -/
theorem C8_comparison_count_positive (l : List Nat) (t : Nat) (hlen : l.length < 2 ^ 29) :
    (∀ r, binary_search l t = Run.ret r → 1 ≤ r.comparison_count) ∧
    (∀ r, interpolation_search l t = Run.ret r → 1 ≤ r.comparison_count) ∧
    (∀ r, interpolated_binary_search l t = Run.ret r → 1 ≤ r.comparison_count) := by
  have hlen2 : l.length < 536870912 := lt_of_lt_of_le hlen (by norm_num)
  refine ⟨fun r h => ?_, fun r h => ?_, fun r h => ?_⟩
  · unfold binary_search at h
    by_cases hl0 : l.length = 0
    · rw [if_pos hl0] at h; cases h; exact Nat.le_refl 1
    · rw [if_neg hl0] at h
      obtain ⟨d, hd, hcount⟩ := binLoop_delta l t _ _ _ _ r h
      rw [hcount, U32LIM_eq, Nat.mod_eq_of_lt (by omega)]
      omega
  · unfold interpolation_search at h
    by_cases hl0 : l.length = 0
    · rw [if_pos hl0] at h; cases h; exact Nat.le_refl 1
    · rw [if_neg hl0] at h
      obtain ⟨d, hd, hcount⟩ := interpLoop_delta l t _ _ _ _ r h
      rw [hcount, U32LIM_eq, Nat.mod_eq_of_lt (by omega)]
      omega
  · unfold interpolated_binary_search at h
    by_cases hl0 : l.length = 0
    · rw [if_pos hl0] at h; cases h; exact Nat.le_refl 1
    · rw [if_neg hl0] at h
      obtain ⟨d, hd, hcount⟩ := hybLoop_delta l t _ _ _ _ r h
      rw [hcount, U32LIM_eq, Nat.mod_eq_of_lt (by omega)]
      omega

/-- Witness for C8 at the empty sequence with target 42. -/
theorem C8_witness : 1 ≤ (SearchResult.mk (-1) 1 0).comparison_count :=
  (C8_comparison_count_positive [] 42 (by norm_num)).1 ⟨-1, 1, 0⟩ rfl

/-! Exact cost accounting for interpolation_search (claim C7). -/

theorem interpLoop_count (l : List Nat) (t : Nat) :
    ∀ fuel s e c r, interpLoop l t fuel s e c = Run.ret r →
      ∃ k, interpStepsAux l t fuel s e = some k ∧
        r.comparison_count = (c + (5 * k + 4)) % U32LIM := by
  intro fuel
  induction fuel with
  | zero => intro s e c r h; exact Run.noConfusion h
  | succ n ih =>
    intro s e c r h
    simp only [interpLoop] at h
    simp only [interpStepsAux]
    rcases getElem32_cases l e with ⟨ve, hge, hve⟩ | ⟨hge, _⟩ <;> rw [hge] at h
    · simp only [Run.bind] at h
      obtain ⟨helen, hveq⟩ := List.getElem?_eq_some_iff.mp hve
      rcases getElem32_cases l s with ⟨vs, hgs, hvs⟩ | ⟨hgs, _⟩ <;> rw [hgs] at h
      · simp only [Run.bind] at h
        obtain ⟨hslen, hseq⟩ := List.getElem?_eq_some_iff.mp hvs
        rw [dif_pos helen, dif_pos hslen, hveq, hseq]
        by_cases hg : ve ≠ vs ∧ vs ≤ t ∧ t ≤ ve
        · rw [if_pos hg] at h ⊢
          by_cases h0 : wsub ve vs = 0
          · rw [if_pos h0] at h; exact Run.noConfusion h
          · rw [if_neg h0] at h ⊢
            rcases getElem32_cases l (interpProbe t s e vs ve) with ⟨vip, hgp, hvip⟩ | ⟨hgp, _⟩ <;>
              rw [hgp] at h
            · simp only [Run.bind] at h
              obtain ⟨hiplen, hipeq⟩ := List.getElem?_eq_some_iff.mp hvip
              rw [dif_pos hiplen, hipeq]
              by_cases hteq : t = vip
              · rw [if_pos hteq] at h ⊢
                cases h
                refine ⟨0, rfl, ?_⟩
                simp [wadd_wadd, wadd]
              · rw [if_neg hteq] at h ⊢
                by_cases htlt : t < vip
                · rw [if_pos htlt] at h ⊢
                  obtain ⟨k, hsteps, hcount⟩ := ih _ _ _ _ h
                  refine ⟨k + 1, by rw [hsteps]; rfl, ?_⟩
                  rw [hcount]
                  simp only [wadd_wadd, wadd, Nat.mod_add_mod]
                  congr 1
                  ring
                · rw [if_neg htlt] at h ⊢
                  obtain ⟨k, hsteps, hcount⟩ := ih _ _ _ _ h
                  refine ⟨k + 1, by rw [hsteps]; rfl, ?_⟩
                  rw [hcount]
                  simp only [wadd_wadd, wadd, Nat.mod_add_mod]
                  congr 1
                  ring
            · exact Run.noConfusion h
        · rw [if_neg hg] at h ⊢
          by_cases hteq : t = vs
          · rw [if_pos hteq] at h
            cases h
            exact ⟨0, rfl, rfl⟩
          · rw [if_neg hteq] at h
            cases h
            exact ⟨0, rfl, rfl⟩
      · exact Run.noConfusion h
    · exact Run.noConfusion h

/-- Claim C7: on a non-empty sequence, a normally-returning run of
interpolation_search has comparison_count equal (in u32 arithmetic) to
1 for the initial emptiness check, plus 5 for every completed
non-returning loop iteration (3 for the guard, 1 for the equality check
at the probe, 1 for the direction check), plus 4 for the path that leaves
the loop (3 guard comparisons and the equality check when the probe hits,
or the fixed 4 comparisons of the final check against value[low]):
altogether 5 * steps + 5. -/
theorem C7_interpolation_cost (l : List Nat) (t : Nat) (r : SearchResult) (hne : l ≠ [])
    (h : interpolation_search l t = Run.ret r) :
    ∃ k, interpSteps l t = some k ∧ r.comparison_count = (5 * k + 5) % U32LIM := by
  have hl0 : ¬ l.length = 0 := by simpa using hne
  unfold interpolation_search at h
  rw [if_neg hl0] at h
  obtain ⟨k, hsteps, hcount⟩ := interpLoop_count l t _ _ _ _ r h
  refine ⟨k, ?_, ?_⟩
  · unfold interpSteps
    rw [if_neg hl0]
    exact hsteps
  · rw [hcount]
    congr 1
    ring

/-- Witness for C7 at the sequence [1,3,5,7,9,11] with target 7: the run
returns found at index 3 after zero completed iterations with 5
comparisons, and 5 = (5 * 0 + 5) % 2 ^ 32. -/
theorem C7_witness :
    ∃ k, interpSteps [1, 3, 5, 7, 9, 11] 7 = some k ∧
      (SearchResult.mk 3 5 6).comparison_count = (5 * k + 5) % U32LIM :=
  C7_interpolation_cost [1, 3, 5, 7, 9, 11] 7 ⟨3, 5, 6⟩ (by simp) rfl

/-! Range of the interpolation probe, and claim C10. -/

theorem interpProbe_range (t s e vs ve : Nat) (hse : s ≤ e) (heM : e < U32LIM)
    (htM : t < U32LIM) (hveM : ve < U32LIM) (hvst : vs ≤ t) (htve : t ≤ ve)
    (hlt : vs < ve) :
    s ≤ interpProbe t s e vs ve ∧ interpProbe t s e vs ve ≤ e := by
  have e1 : wsub t vs = t - vs := wsub_eq hvst htM
  have e2 : wsub e s = e - s := wsub_eq hse heM
  have e3 : wsub ve vs = ve - vs := wsub_eq (Nat.le_of_lt hlt) hveM
  have hX : wmul (wsub t vs) (wsub e s) / wsub ve vs ≤ e - s := by
    rw [e1, e2, e3]
    calc wmul (t - vs) (e - s) / (ve - vs)
        ≤ (t - vs) * (e - s) / (ve - vs) := Nat.div_le_div_right (Nat.mod_le _ _)
      _ ≤ (ve - vs) * (e - s) / (ve - vs) :=
          Nat.div_le_div_right (Nat.mul_le_mul_right _ (by omega))
      _ = e - s := Nat.mul_div_cancel_left _ (by omega)
  have hb2 : s + wmul (wsub t vs) (wsub e s) / wsub ve vs ≤ e := by
    calc s + wmul (wsub t vs) (wsub e s) / wsub ve vs
        ≤ s + (e - s) := Nat.add_le_add_left hX s
      _ = e := Nat.add_sub_cancel' hse
  unfold interpProbe
  rw [wadd_eq (lt_of_le_of_lt hb2 heM)]
  exact ⟨Nat.le_add_right s _, hb2⟩

/-- Claim C10: inside the interpolation_search loop on a sorted sequence,
the narrowing step end_index = probe - 1 is never executed with probe
equal to 0: under the loop guard (boundary values differ and the target
lies between them), the probe stays within the current range, and in the
branch target less than value[probe] the probe cannot be 0, because
probe = 0 would force start_index = 0 and the guard condition
value[start] at most target contradicts target < value[probe]; the
wrapping subtraction probe - 1 is therefore the exact subtraction. -/
theorem C10_probe_decrement_safe (l : List Nat) (t s e vs ve : Nat)
    (hl : List.Sorted (fun a b : Nat => a ≤ b) l) (hlen : l.length ≤ 2 ^ 31)
    (ht : t < U32LIM) (hvals : ∀ x ∈ l, x < U32LIM)
    (hse : s ≤ e) (hvs : l[s]? = some vs) (hve : l[e]? = some ve)
    (hg1 : ve ≠ vs) (hg2 : vs ≤ t) (hg3 : t ≤ ve) :
    s ≤ interpProbe t s e vs ve ∧ interpProbe t s e vs ve ≤ e ∧
    (∀ vip, l[interpProbe t s e vs ve]? = some vip → t < vip →
      1 ≤ interpProbe t s e vs ve ∧
      wsub (interpProbe t s e vs ve) 1 = interpProbe t s e vs ve - 1) := by
  have hlen2 : l.length ≤ 2147483648 := le_trans hlen (by norm_num)
  obtain ⟨helen, hveq⟩ := List.getElem?_eq_some_iff.mp hve
  obtain ⟨hslen, hseq⟩ := List.getElem?_eq_some_iff.mp hvs
  have heM : e < U32LIM := by rw [U32LIM_eq]; omega
  have hveM : ve < U32LIM := by
    rw [← hveq]
    exact hvals _ (List.getElem_mem helen)
  have hvslt : vs < ve := by
    have hle : vs ≤ ve := by
      rw [← hveq, ← hseq]
      exact sorted_getElem_le hl hslen helen hse
    omega
  obtain ⟨hlo, hhi⟩ := interpProbe_range t s e vs ve hse heM ht hveM hg2 hg3 hvslt
  refine ⟨hlo, hhi, fun vip hvip htlt => ?_⟩
  have hip1 : 1 ≤ interpProbe t s e vs ve := by
    by_contra hc
    have hip0 : interpProbe t s e vs ve = 0 := by omega
    have hs0 : s = 0 := by omega
    rw [hip0] at hvip
    rw [hs0] at hvs
    have hvv : vip = vs := Option.some.inj (hvip.symm.trans hvs)
    omega
  refine ⟨hip1, wsub_eq hip1 (by rw [U32LIM_eq]; omega)⟩

/-- Witness for C10 at the sorted sequence [1,3,5] with target 3 and the
full range (0, 2): the probe is 1 and the branch facts evaluate. -/
theorem C10_witness :
    0 ≤ interpProbe 3 0 2 1 5 ∧ interpProbe 3 0 2 1 5 ≤ 2 ∧
    (∀ vip, ([1, 3, 5] : List Nat)[interpProbe 3 0 2 1 5]? = some vip → 3 < vip →
      1 ≤ interpProbe 3 0 2 1 5 ∧
      wsub (interpProbe 3 0 2 1 5) 1 = interpProbe 3 0 2 1 5 - 1) :=
  C10_probe_decrement_safe [1, 3, 5] 3 0 2 1 5 (by decide) (by norm_num)
    (by norm_num [U32LIM_eq]) (by decide) (by norm_num) rfl rfl
    (by norm_num) (by norm_num) (by norm_num)

/-! Total correctness of binary_search on present targets (claim C1). -/

theorem binLoop_finds (l : List Nat) (t : Nat)
    (hl : List.Sorted (fun a b : Nat => a ≤ b) l) (hlen : l.length ≤ 2 ^ 31) :
    ∀ fuel s e c j, l[j]? = some t → s ≤ j → j ≤ e → e < l.length → e - s < fuel →
      ∃ i cc, i < l.length ∧ l[i]? = some t ∧
        binLoop l t fuel s e c = Run.ret ⟨(i : Int), cc, l.length⟩ := by
  have hlen2 : l.length ≤ 2147483648 := le_trans hlen (by norm_num)
  intro fuel
  induction fuel with
  | zero => intro s e c j hjt hsj hje he hfuel; omega
  | succ n ih =>
    intro s e c j hjt hsj hje he hfuel
    obtain ⟨hj, hjeq⟩ := List.getElem?_eq_some_iff.mp hjt
    have hse : s ≤ e := le_trans hsj hje
    have hsub : wsub e s = e - s := wsub_eq hse (by rw [U32LIM_eq]; omega)
    have hdiv : (e - s) / 2 ≤ e - s := Nat.div_le_self _ _
    have hsi : wadd s (wsub e s / 2) = s + (e - s) / 2 := by
      rw [hsub]
      exact wadd_eq (by rw [U32LIM_eq]; omega)
    have hsilo : s ≤ s + (e - s) / 2 := Nat.le_add_right _ _
    have hsihi : s + (e - s) / 2 ≤ e := by omega
    have hsilen : s + (e - s) / 2 < l.length := by omega
    simp only [binLoop]
    rw [if_pos hse, hsi, getElem32_eq_ret hsilen]
    simp only [Run.bind]
    by_cases hvt : l[s + (e - s) / 2] = t
    · rw [if_pos hvt]
      exact ⟨s + (e - s) / 2, wadd (wadd c 1) 1, hsilen,
        by rw [List.getElem?_eq_getElem hsilen, hvt],
        by rw [u32_as_i32_eq (by omega)]⟩
    · rw [if_neg hvt]
      by_cases hlt : l[s + (e - s) / 2] < t
      · rw [if_pos hlt]
        have hjgt : s + (e - s) / 2 < j := by
          by_contra hc
          have hc2 : j ≤ s + (e - s) / 2 := by omega
          have := sorted_getElem_le hl hj hsilen hc2
          omega
        have hstep : wadd (s + (e - s) / 2) 1 = s + (e - s) / 2 + 1 := by
          apply wadd_eq
          rw [U32LIM_eq]
          omega
        rw [hstep]
        exact ih (s + (e - s) / 2 + 1) e _ j hjt (by omega) hje he (by omega)
      · rw [if_neg hlt]
        have hgt : t < l[s + (e - s) / 2] := by
          rcases Nat.lt_or_ge t l[s + (e - s) / 2] with h1 | h1
          · exact h1
          · exact absurd (Nat.le_antisymm (Nat.le_of_not_lt hlt) h1).symm hvt
        have hjlt : j < s + (e - s) / 2 := by
          by_contra hc
          have hc2 : s + (e - s) / 2 ≤ j := by omega
          have := sorted_getElem_le hl hsilen hj hc2
          omega
        have hstep : wsub (s + (e - s) / 2) 1 = s + (e - s) / 2 - 1 := by
          apply wsub_eq (by omega)
          rw [U32LIM_eq]
          omega
        rw [hstep]
        exact ih s (s + (e - s) / 2 - 1) _ j hjt hsj (by omega) (by omega) (by omega)

/-! Total correctness of interpolation_search on present targets (C1). -/

theorem interpLoop_finds (l : List Nat) (t : Nat)
    (hl : List.Sorted (fun a b : Nat => a ≤ b) l) (hlen : l.length ≤ 2 ^ 31)
    (hvals : ∀ x ∈ l, x < U32LIM) (ht : t < U32LIM) :
    ∀ fuel s e c j, l[j]? = some t → s ≤ j → j ≤ e → e < l.length → e - s < fuel →
      ∃ i cc, i < l.length ∧ l[i]? = some t ∧
        interpLoop l t fuel s e c = Run.ret ⟨(i : Int), cc, l.length⟩ := by
  have hlen2 : l.length ≤ 2147483648 := le_trans hlen (by norm_num)
  intro fuel
  induction fuel with
  | zero => intro s e c j hjt hsj hje he hfuel; omega
  | succ n ih =>
    intro s e c j hjt hsj hje he hfuel
    obtain ⟨hj, hjeq⟩ := List.getElem?_eq_some_iff.mp hjt
    have hse : s ≤ e := le_trans hsj hje
    have hslen : s < l.length := lt_of_le_of_lt hsj hj
    have hvst : l[s] ≤ t := by
      have := sorted_getElem_le hl hslen hj hsj
      omega
    have htve : t ≤ l[e] := by
      have := sorted_getElem_le hl hj he hje
      omega
    simp only [interpLoop]
    rw [getElem32_eq_ret he, getElem32_eq_ret hslen]
    simp only [Run.bind]
    by_cases hg : l[e] ≠ l[s] ∧ l[s] ≤ t ∧ t ≤ l[e]
    · rw [if_pos hg]
      have hvslt : l[s] < l[e] := lt_of_le_of_ne (sorted_getElem_le hl hslen he hse) (Ne.symm hg.1)
      have hveM : l[e] < U32LIM := hvals _ (List.getElem_mem he)
      have h0 : wsub l[e] l[s] = l[e] - l[s] := wsub_eq (Nat.le_of_lt hvslt) hveM
      rw [if_neg (by omega)]
      obtain ⟨hlo, hhi⟩ := interpProbe_range t s e l[s] l[e] hse
        (by rw [U32LIM_eq]; omega) ht hveM hvst htve hvslt
      set ip := interpProbe t s e l[s] l[e] with hip
      have hiplen : ip < l.length := lt_of_le_of_lt hhi he
      rw [getElem32_eq_ret hiplen]
      simp only [Run.bind]
      by_cases hteq : t = l[ip]
      · rw [if_pos hteq]
        exact ⟨ip, wadd (wadd c 3) 1, hiplen,
          by rw [List.getElem?_eq_getElem hiplen, hteq],
          by rw [u32_as_i32_eq (by omega)]⟩
      · rw [if_neg hteq]
        by_cases htlt : t < l[ip]
        · rw [if_pos htlt]
          have hjip : j < ip := by
            by_contra hc
            have hc2 : ip ≤ j := by omega
            have := sorted_getElem_le hl hiplen hj hc2
            omega
          have hstep : wsub ip 1 = ip - 1 := wsub_eq (by omega) (by rw [U32LIM_eq]; omega)
          rw [hstep]
          exact ih s (ip - 1) _ j hjt hsj (by omega) (by omega) (by omega)
        · rw [if_neg htlt]
          have hgt : l[ip] < t := by omega
          have hjip : ip < j := by
            by_contra hc
            have hc2 : j ≤ ip := by omega
            have := sorted_getElem_le hl hj hiplen hc2
            omega
          have hstep : wadd ip 1 = ip + 1 := wadd_eq (by rw [U32LIM_eq]; omega)
          rw [hstep]
          exact ih (ip + 1) e _ j hjt (by omega) hje he (by omega)
    · rw [if_neg hg]
      have hvv : l[e] = l[s] := by
        by_contra hne
        exact hg ⟨hne, hvst, htve⟩
      have hts : t = l[s] := by omega
      rw [if_pos hts]
      exact ⟨s, wadd c 4, hslen,
        by rw [List.getElem?_eq_getElem hslen, ← hts],
        by rw [u32_as_i32_eq (by omega)]⟩

/-! Partial correctness of interpolated_binary_search on present targets:
whenever the run returns normally, the result is found at a matching
index (claim C1). -/

theorem getElem_idx_eq {l : List Nat} {i j : Nat} (hij : i = j)
    (hi : i < l.length) (hj : j < l.length) : l[i] = l[j] := by
  subst hij
  rfl

theorem hybLoop_found (l : List Nat) (t : Nat)
    (hl : List.Sorted (fun a b : Nat => a ≤ b) l) (hlen : l.length ≤ 2 ^ 31)
    (hvals : ∀ x ∈ l, x < U32LIM) (ht : t < U32LIM) :
    ∀ fuel s e c r j, l[j]? = some t → s ≤ j → j ≤ e → e < l.length →
      hybLoop l t fuel s e c = Run.ret r →
      ∃ i, i < l.length ∧ l[i]? = some t ∧ r.target_index = (i : Int) := by
  have hlen2 : l.length ≤ 2147483648 := le_trans hlen (by norm_num)
  intro fuel
  induction fuel with
  | zero => intro s e c r j hjt hsj hje he h; exact Run.noConfusion h
  | succ n ih =>
    intro s e c r j hjt hsj hje he h
    obtain ⟨hj, hjeq⟩ := List.getElem?_eq_some_iff.mp hjt
    have hslen : s < l.length := lt_of_le_of_lt hsj hj
    have hvst : l[s] ≤ t := by
      have := sorted_getElem_le hl hslen hj hsj
      omega
    have htve : t ≤ l[e] := by
      have := sorted_getElem_le hl hj he hje
      omega
    simp only [hybLoop] at h
    by_cases hse : s < e
    · rw [if_pos hse] at h
      rw [getElem32_eq_ret hslen, getElem32_eq_ret he] at h
      simp only [Run.bind] at h
      by_cases h0 : wsub l[e] l[s] = 0
      · rw [if_pos h0] at h
        exact Run.noConfusion h
      · rw [if_neg h0] at h
        have hsele : l[s] ≤ l[e] := sorted_getElem_le hl hslen he (Nat.le_of_lt hse)
        have hveM : l[e] < U32LIM := hvals _ (List.getElem_mem he)
        have hvslt : l[s] < l[e] := by
          rw [wsub_eq hsele hveM] at h0
          omega
        obtain ⟨hlo, hhi⟩ := interpProbe_range t s e l[s] l[e] (Nat.le_of_lt hse)
          (by rw [U32LIM_eq]; omega) ht hveM hvst htve hvslt
        set ip := interpProbe t s e l[s] l[e] with hip
        have hiplen : ip < l.length := lt_of_le_of_lt hhi he
        rw [getElem32_eq_ret hiplen] at h
        simp only [Run.bind] at h
        by_cases hb1 : l[ip] < t
        · rw [if_pos hb1] at h
          have hjip : ip < j := by
            by_contra hc
            have hc2 : j ≤ ip := by omega
            have := sorted_getElem_le hl hj hiplen hc2
            omega
          have hmideq : wadd ip e = ip + e := wadd_eq (by rw [U32LIM_eq]; omega)
          rw [hmideq] at h
          have hmidlo : ip ≤ (ip + e) / 2 := by omega
          have hmidhi : (ip + e) / 2 ≤ e := by omega
          have hmidlen : (ip + e) / 2 < l.length := by omega
          rw [getElem32_eq_ret hmidlen] at h
          simp only [Run.bind] at h
          by_cases hb2 : t ≤ l[(ip + e) / 2]
          · rw [if_pos hb2] at h
            have hstep : wadd ip 1 = ip + 1 := wadd_eq (by rw [U32LIM_eq]; omega)
            rw [hstep] at h
            have hipmid : ip < (ip + e) / 2 := by
              by_contra hc
              have hc2 : (ip + e) / 2 = ip := by omega
              have hveq2 := getElem_idx_eq hc2 hmidlen hiplen
              omega
            by_cases hjm : j ≤ (ip + e) / 2
            · exact ih (ip + 1) ((ip + e) / 2) _ r j hjt (by omega) hjm hmidlen h
            · have hmt : l[(ip + e) / 2] = t := by
                have := sorted_getElem_le hl hmidlen hj (by omega)
                omega
              exact ih (ip + 1) ((ip + e) / 2) _ r ((ip + e) / 2)
                (by rw [List.getElem?_eq_getElem hmidlen, hmt]) (by omega)
                (Nat.le_refl _) hmidlen h
          · rw [if_neg hb2] at h
            have hmlt : l[(ip + e) / 2] < t := by omega
            have hjmid : (ip + e) / 2 < j := by
              by_contra hc
              have hc2 : j ≤ (ip + e) / 2 := by omega
              have := sorted_getElem_le hl hj hmidlen hc2
              omega
            have hstep : wadd ((ip + e) / 2) 1 = (ip + e) / 2 + 1 :=
              wadd_eq (by rw [U32LIM_eq]; omega)
            rw [hstep] at h
            exact ih ((ip + e) / 2 + 1) e _ r j hjt (by omega) hje he h
        · rw [if_neg hb1] at h
          by_cases hb3 : t < l[ip]
          · rw [if_pos hb3] at h
            have hjip : j < ip := by
              by_contra hc
              have hc2 : ip ≤ j := by omega
              have := sorted_getElem_le hl hiplen hj hc2
              omega
            have hips : s < ip := by
              rcases Nat.lt_or_ge s ip with h1 | h1
              · exact h1
              · have hsip : ip = s := by omega
                have hveq2 := getElem_idx_eq hsip hiplen hslen
                omega
            have hmideq : wadd ip s = ip + s := wadd_eq (by rw [U32LIM_eq]; omega)
            rw [hmideq] at h
            have hmidlo : s ≤ (ip + s) / 2 := by omega
            have hmidhi : (ip + s) / 2 < ip := by omega
            have hmidlen : (ip + s) / 2 < l.length := by omega
            rw [getElem32_eq_ret hmidlen] at h
            simp only [Run.bind] at h
            by_cases hb4 : l[(ip + s) / 2] ≤ t
            · rw [if_pos hb4] at h
              have hstep : wsub ip 1 = ip - 1 := wsub_eq (by omega) (by rw [U32LIM_eq]; omega)
              rw [hstep] at h
              by_cases hjm : (ip + s) / 2 ≤ j
              · exact ih ((ip + s) / 2) (ip - 1) _ r j hjt hjm (by omega) (by omega) h
              · have hmt : l[(ip + s) / 2] = t := by
                  have := sorted_getElem_le hl hj hmidlen (by omega)
                  omega
                exact ih ((ip + s) / 2) (ip - 1) _ r ((ip + s) / 2)
                  (by rw [List.getElem?_eq_getElem hmidlen, hmt]) (Nat.le_refl _)
                  (by omega) (by omega) h
            · rw [if_neg hb4] at h
              have hmgt : t < l[(ip + s) / 2] := by omega
              have hjmid : j < (ip + s) / 2 := by
                by_contra hc
                have hc2 : (ip + s) / 2 ≤ j := by omega
                have := sorted_getElem_le hl hmidlen hj hc2
                omega
              have hstep : wsub ((ip + s) / 2) 1 = (ip + s) / 2 - 1 :=
                wsub_eq (by omega) (by rw [U32LIM_eq]; omega)
              rw [hstep] at h
              exact ih s ((ip + s) / 2 - 1) _ r j hjt hsj (by omega) (by omega) h
          · rw [if_neg hb3] at h
            cases h
            have hteq : l[ip] = t := by omega
            exact ⟨ip, hiplen, by rw [List.getElem?_eq_getElem hiplen, hteq],
              by rw [u32_as_i32_eq (by omega)]⟩
    · rw [if_neg hse] at h
      have hsj2 : s = j := by omega
      rw [getElem32_eq_ret hslen] at h
      simp only [Run.bind] at h
      have hts : t = l[s] := by
        have hveq2 := getElem_idx_eq hsj2 hslen hj
        omega
      rw [if_pos hts] at h
      cases h
      exact ⟨s, hslen, by rw [List.getElem?_eq_getElem hslen, ← hts],
        by rw [u32_as_i32_eq (by omega)]⟩

/-- Claim C1 (amended): for every non-decreasing sequence of u32 values
indexable by u32 (length at most 2 ^ 31) and every u32 target present at
some index, binary_search and interpolation_search return a found result
at an index whose element equals the target; interpolated_binary_search
also does so whenever it returns at all, but it can instead panic with a
division by zero when its loop reaches a sub-range with equal boundary
values, e.g. on [5, 5] with target 5 (see the counterexample above). -/
theorem C1_present_target_found (l : List Nat) (t : Nat)
    (hl : List.Sorted (fun a b : Nat => a ≤ b) l) (hlen : l.length ≤ 2 ^ 31)
    (hvals : ∀ x ∈ l, x < U32LIM) (ht : t < U32LIM)
    (j : Nat) (hjt : l[j]? = some t) :
    (∃ i cc, i < l.length ∧ l[i]? = some t ∧
      binary_search l t = Run.ret ⟨(i : Int), cc, l.length⟩) ∧
    (∃ i cc, i < l.length ∧ l[i]? = some t ∧
      interpolation_search l t = Run.ret ⟨(i : Int), cc, l.length⟩) ∧
    (∀ r, interpolated_binary_search l t = Run.ret r →
      ∃ i, i < l.length ∧ l[i]? = some t ∧ r.target_index = (i : Int)) := by
  obtain ⟨hj, hjeq⟩ := List.getElem?_eq_some_iff.mp hjt
  have hl0 : ¬ l.length = 0 := by omega
  have hlen2 : l.length ≤ 2147483648 := le_trans hlen (by norm_num)
  have hinit : wsub (l.length % U32LIM) 1 = l.length - 1 := by
    rw [Nat.mod_eq_of_lt (by rw [U32LIM_eq]; omega)]
    exact wsub_eq (by omega) (by rw [U32LIM_eq]; omega)
  refine ⟨?_, ?_, ?_⟩
  · unfold binary_search
    rw [if_neg hl0, hinit]
    exact binLoop_finds l t hl hlen (l.length + 2) 0 (l.length - 1) 1 j hjt
      (Nat.zero_le _) (by omega) (by omega) (by omega)
  · unfold interpolation_search
    rw [if_neg hl0, hinit]
    exact interpLoop_finds l t hl hlen hvals ht (l.length + 2) 0 (l.length - 1) 1 j hjt
      (Nat.zero_le _) (by omega) (by omega) (by omega)
  · intro r h
    unfold interpolated_binary_search at h
    rw [if_neg hl0, hinit] at h
    exact hybLoop_found l t hl hlen hvals ht (l.length + 2) 0 (l.length - 1) 1 r j hjt
      (Nat.zero_le _) (by omega) (by omega) h

/-- Witness for C1 at the sorted sequence [1,3,5,7,9,11] with target 7,
present at index 3. -/
theorem C1_witness :
    (∃ i cc, i < ([1, 3, 5, 7, 9, 11] : List Nat).length ∧
      ([1, 3, 5, 7, 9, 11] : List Nat)[i]? = some 7 ∧
      binary_search [1, 3, 5, 7, 9, 11] 7 = Run.ret ⟨(i : Int), cc, 6⟩) ∧
    (∃ i cc, i < ([1, 3, 5, 7, 9, 11] : List Nat).length ∧
      ([1, 3, 5, 7, 9, 11] : List Nat)[i]? = some 7 ∧
      interpolation_search [1, 3, 5, 7, 9, 11] 7 = Run.ret ⟨(i : Int), cc, 6⟩) ∧
    (∀ r, interpolated_binary_search [1, 3, 5, 7, 9, 11] 7 = Run.ret r →
      ∃ i, i < ([1, 3, 5, 7, 9, 11] : List Nat).length ∧
        ([1, 3, 5, 7, 9, 11] : List Nat)[i]? = some 7 ∧ r.target_index = (i : Int)) :=
  C1_present_target_found [1, 3, 5, 7, 9, 11] 7 (by decide) (by norm_num)
    (by decide) (by norm_num [U32LIM_eq]) 3 rfl
